import Mathlib

/-!
Verification development for the LZ penalty subsystem
(`python/sglang/srt/sampling/penaltylib/lz_penalty.py`).

The Python source operates on torch tensors; here tensors are modelled as
(nested) lists, token ids and size parameters as `Int`, and float values as
exact reals.  A float `+inf` produced by "no match" is modelled as `none` of
an `Option` carrying the finite value otherwise.  Operations that raise a
Python exception (shape mismatches, type errors, index errors) are modelled
as `Option`-returning functions yielding `none`.
-/

/-- Cumulative products of a list of naturals, mirroring `torch.cumprod`
(entry `i` is the product of the first `i+1` elements). -/
def cumprodList (l : List Nat) : List Nat :=
  (l.scanl (fun a b => a * b) 1).tail

/-- Model of `compute_reversed_consecutive_counts` (lz_penalty.py lines 58-65)
restricted to one boolean row: the row is reversed (`E.flip(dims=[1])`),
booleans become 0/1 floats, a cumulative product is taken and summed, which
counts the consecutive `true` entries from the right end of the row. -/
def compute_reversed_consecutive_counts (E : List Bool) : Nat :=
  (cumprodList (E.reverse.map (fun b => if b then 1 else 0))).sum

/-- Sliding windows of width `n`, step 1, over a list: the model of
`t.unfold(dim, n, 1)` for a 1-D tensor `t`.  For `n ≤ l.length` this yields
`l.length - n + 1` windows. -/
def slidingWindows (l : List Int) (n : Nat) : List (List Int) :=
  (List.range (l.length + 1 - n)).map (fun j => (l.drop j).take n)

/-- The candidate windows of `compute_lz_penalty_stateless` (line 80):
`W_context[:-1].unfold(0, n, 1)` — every width-`n` sliding window of the
context with its final token removed. -/
def lz_windows (W_context : List Int) (n : Nat) : List (List Int) :=
  slidingWindows W_context.dropLast n

/-- The lookback of `compute_lz_penalty_stateless` (line 83):
`W_context[-n:]`, the last `n` tokens of the context (for `1 ≤ n`). -/
def lz_lookback (W_context : List Int) (n : Nat) : List Int :=
  W_context.drop (W_context.length - n)

/-- Per-window match-run lengths (lines 86-89): each window is compared
elementwise with the lookback (`E = windows == L_lookback.unsqueeze(0)`) and
`U = compute_reversed_consecutive_counts(E)` counts, per window, how far the
match extends contiguously from the most recent position backward. -/
def lz_U (W_context : List Int) (n : Nat) : List Nat :=
  (lz_windows W_context n).map
    (fun win =>
      compute_reversed_consecutive_counts
        (List.zipWith (fun a b => decide (a = b)) win (lz_lookback W_context n)))

/-- Continuation tokens (line 92): `match_context = W_context[n:]`, the token
following each candidate window. -/
def lz_matchContext (W_context : List Int) (n : Nat) : List Int :=
  W_context.drop n

/-- The candidate match-length row for one vocabulary token `g`
(lines 93-94): `M = (G_vocab.unsqueeze(1) == match_context.unsqueeze(0)).int()`
restricted to the row of `g`, and `RP = (M * U) + M`. -/
def lz_RP (W_context : List Int) (n : Nat) (g : Int) : List Int :=
  List.zipWith (fun m u => m * (u : Int) + m)
    ((lz_matchContext W_context n).map (fun t => if g = t then (1 : Int) else 0))
    (lz_U W_context n)

/-- The distance-selection core of `compute_lz_encoding_cost`
(lz_penalty.py lines 16-50) for one row `x`: positions are assigned
distances `x.length - j` (the reversed index plus one, so the most recent
position has distance 1), positions with non-positive value are masked out,
`max_len` is the row maximum, and the minimum distance among unmasked
positions attaining `max_len` is returned; `none` models the float `inf`
result when no valid match exists (including the empty row). -/
def lz_minBestDist (x : List Int) : Option Nat :=
  match x.max? with
  | none => none
  | some maxLen =>
      ((List.range x.length).filterMap
        (fun j =>
          if 0 < x.getD j 0 ∧ x.getD j 0 = maxLen then some (x.length - j) else none)).min?

/-- Model of `compute_lz_encoding_cost` (lz_penalty.py lines 9-55) on one row:
`log2` of the distance of the best match (longest length, then smallest
distance); `none` models the `inf` cost when the row has no positive entry. -/
noncomputable def compute_lz_encoding_cost (x : List Int) : Option ℝ :=
  (lz_minBestDist x).map (fun (d : Nat) => Real.logb 2 (d : ℝ))

/-- Model of `torch.clamp(c, min=lo, max=hi)` where `c` is a possibly-infinite
cost (`none` standing for `+inf`): torch computes `min (max c lo) hi`, and for
`c = +inf` this is `hi`. -/
noncomputable def torchClampInf (c : Option ℝ) (lo hi : ℝ) : ℝ :=
  match c with
  | none => hi
  | some y => min (max y lo) hi

/-- The per-token penalty value of `compute_lz_penalty_stateless`
(lines 95-97): `log_vocab - clamp(compute_lz_encoding_cost(RP), 0, log_vocab)`
with `log_vocab = math.log2(len(G_vocab))`. -/
noncomputable def lz_penalty_val (W_context G_vocab : List Int) (n : Nat) (g : Int) : ℝ :=
  Real.logb 2 (G_vocab.length : ℝ) -
    torchClampInf (compute_lz_encoding_cost (lz_RP W_context n g)) 0
      (Real.logb 2 (G_vocab.length : ℝ))

/-- Model of `compute_lz_penalty_stateless` (lz_penalty.py lines 68-97).
When `w ≤ n` the source executes `torch.zeros(G_vocab, device=...)`, passing
the vocabulary *tensor* as the size argument of `torch.zeros`; for a
multi-element vocabulary this raises (a multi-element tensor cannot be
converted to a scalar index), modelled as `none`.  Otherwise the per-token
penalties are returned, one per vocabulary entry. -/
noncomputable def compute_lz_penalty_stateless (W_context G_vocab : List Int)
    (n : Nat) : Option (List ℝ) :=
  if W_context.length ≤ n then none
  else some (G_vocab.map (lz_penalty_val W_context G_vocab n))

/-- Model of the element assignment `penalties[i] = v` performed by
`compute_lz_penalty_naive` (line 111): the slot `penalties[i]` is 0-dimensional,
so torch copies `v` into it only when `v` broadcasts to a scalar, i.e. has
exactly one element; a length-`V` penalty vector with `V ≠ 1` raises a
shape-mismatch `RuntimeError`, modelled as `none`. -/
noncomputable def lz_setitem (pens : List ℝ) (i : Nat) (v : List ℝ) : Option (List ℝ) :=
  if v.length = 1 then some (pens.set i (v.headD 0)) else none

/-- The loop of `compute_lz_penalty_naive` (lines 109-111) over the request
indices, threading the `penalties` accumulator and propagating any raised
exception as `none`. -/
noncomputable def lz_naive_go (W_context : List (List Int)) (G_vocab : List Int)
    (Ns : List Nat) : List Nat → List ℝ → Option (List ℝ)
  | [], pens => some pens
  | i :: rest, pens =>
      match Ns[i]?, W_context[i]? with
      | some n, some Wi =>
          match compute_lz_penalty_stateless Wi G_vocab n with
          | none => none
          | some v =>
              match lz_setitem pens i v with
              | none => none
              | some pens' => lz_naive_go W_context G_vocab Ns rest pens'
      | _, _ => none

/-- Model of `compute_lz_penalty_naive` (lz_penalty.py lines 100-112):
`penalties = torch.zeros(batch_size)` followed by the per-request loop
`penalties[i] = compute_lz_penalty_stateless(W_context[i], G_vocab, Ns[i])`. -/
noncomputable def compute_lz_penalty_naive (W_context : List (List Int))
    (G_vocab : List Int) (Ns : List Nat) : Option (List ℝ) :=
  lz_naive_go W_context G_vocab Ns (List.range W_context.length)
    (List.replicate W_context.length 0)

/-- Result shape of `compute_lz_penalty_batched`: its early return for a short
context is a 1-D zero tensor shaped like the vocabulary (`vec`), while the
main path returns a `(batch, vocab)` matrix (`mat`). -/
inductive BatchedResult where
  | vec (v : List ℝ)
  | mat (m : List (List ℝ))

/-- All scalar entries of a `BatchedResult`. -/
def BatchedResult.values : BatchedResult → List ℝ
  | .vec v => v
  | .mat m => m.flatten

/-- Model of `compute_lz_penalty_batched` (lz_penalty.py lines 114-137).
`w = W_context.size(1)` is the shared row width of the stacked context
tensor; for `w ≤ n` the source returns `torch.zeros_like(G_vocab)`, a zero
vector of the vocabulary's length.  Otherwise, tracing the tensor dimensions,
entry `(b, g)` of the result equals the stateless per-row formula: the same
windows, match-run lengths `U`, match indicator `M`, candidate lengths
`K = M * U + M`, encoding cost, clamp, and `log_vocab -` subtraction.
The model is faithful for `1 ≤ n` only: for `n = 0` and row width ≥ 2 the
source raises a broadcast RuntimeError (`W_context[:, -0:]` selects the whole
row, so `E` compares shapes `(B, 0, w)` against `(B, w, 1)`); that error path
is not modelled here, and every theorem about this definition assumes a
positive match length. -/
noncomputable def compute_lz_penalty_batched (W_context : List (List Int))
    (G_vocab : List Int) (n : Nat) : BatchedResult :=
  let w := (W_context.headD []).length
  if w ≤ n then
    BatchedResult.vec (G_vocab.map (fun _ => (0 : ℝ)))
  else
    BatchedResult.mat
      (W_context.map (fun row =>
        let U := lz_U row n
        let match_context := row.drop n
        G_vocab.map (fun g =>
          let M := match_context.map (fun t => if g = t then (1 : Int) else 0)
          let K := List.zipWith (fun m u => m * (u : Int) + m) M U
          Real.logb 2 (G_vocab.length : ℝ) -
            torchClampInf (compute_lz_encoding_cost K) 0
              (Real.logb 2 (G_vocab.length : ℝ)))))

/-- The vocabulary `torch.arange(10)` used by the source's own test scenario. -/
def vocab10 : List Int := [0, 1, 2, 3, 4, 5, 6, 7, 8, 9]

/-- The test context `[1, 2, 3, 4, 2, 3, 4, 5]` from the spec's concrete
scenario (and the source's own `__main__` test case 1). -/
def ctx8 : List Int := [1, 2, 3, 4, 2, 3, 4, 5]

/-- Specification-side definition for claim C4 (worded from the spec, to be
compared with `lz_minBestDist`): the distances (`x.length - j`, so the most
recent position has distance 1) of the row entries whose value equals `m`. -/
def bestMatchDistances (x : List Int) (m : Int) : List Nat :=
  (List.range x.length).filterMap
    (fun j => if x.getD j 0 = m then some (x.length - j) else none)

/-- The per-request sampling parameters consumed by `BatchedLZPenalizer._prepare`
(lz_penalty.py lines 158-175): penalty weight, match-length parameter
(`lz_buffer_size`, the spec's `n`) and sliding-window length
(`lz_lookback_size`). -/
structure SamplingParams where
  lz_penalty : ℝ
  lz_buffer_size : Int
  lz_lookback_size : Int

/-- Representation of the penalizer's `self.Ws`: a stacked rectangular tensor
(`tensor`, produced when the batch is homogeneous) or a python list of
independent per-request tensors (`plist`). -/
inductive WsRep where
  | tensor (rows : List (List Int))
  | plist (rows : List (List Int))

/-- The rows held by either representation (iterating a stacked tensor yields
its row tensors, just as iterating a python list yields its entries). -/
def WsRows : WsRep → List (List Int)
  | .tensor rows => rows
  | .plist rows => rows

/-- State of a `BatchedLZPenalizer` after `_prepare`: the per-request
parameter tensors, the `_batched` flag and the context storage `Ws`. -/
structure LZState where
  lz_penalties : List ℝ
  lz_buffer_sizes : List Int
  lz_lookback_sizes : List Int
  batched : Bool
  Ws : WsRep

/-- The homogeneity test of `_prepare` and `_merge` (lines 180-182, 243-245):
`torch.all(looks == looks[0]) and torch.all(bufs == bufs[0])`. -/
def paramsHomogeneous (looks bufs : List Int) : Bool :=
  looks.all (fun x => decide (x = looks.headD 0)) &&
    bufs.all (fun x => decide (x = bufs.headD 0))

/-- Model of `BatchedLZPenalizer._prepare` (lz_penalty.py lines 158-191): the
three parameter tensors are built from the request list with no validation of
any kind, `_batched` is computed, and each request receives an empty context
(stacked into one rectangular tensor when `_batched`).  On an empty request
list `self.lz_lookback_sizes[0]` raises an IndexError, modelled as `none`. -/
def lz_prepare (reqs : List SamplingParams) : Option LZState :=
  match reqs with
  | [] => none
  | _ :: _ =>
      let looks := reqs.map (fun r => r.lz_lookback_size)
      let bufs := reqs.map (fun r => r.lz_buffer_size)
      let batched := paramsHomogeneous looks bufs
      some { lz_penalties := reqs.map (fun r => r.lz_penalty)
             lz_buffer_sizes := bufs
             lz_lookback_sizes := looks
             batched := batched
             Ws := if batched then WsRep.tensor (List.replicate reqs.length [])
                   else WsRep.plist (List.replicate reqs.length []) }

/-- One ring-buffer push as performed per row by `_cumulate_output_tokens`
(lines 197-200 and 205-208): when the stored width has reached the window
length the oldest token (`row[1:]` keeps the tail) is dropped before the new
token is appended. -/
def pushR (winlen : Int) (r : List Int) (t : Int) : List Int :=
  if winlen ≤ (r.length : Int) then r.tail ++ [t] else r ++ [t]

/-- Model of `BatchedLZPenalizer._cumulate_output_tokens`
(lz_penalty.py lines 193-208).  In batched mode the shared width
`w = self.Ws.size(1)` and `winlen = self.lz_lookback_sizes[0]` drive one
`torch.cat` over all rows (IndexError on an empty parameter tensor and a
shape mismatch on a wrong-length `output_ids` are modelled as `none`; a
batched-flagged state holding a python list would raise AttributeError on
`.size`).  In list mode each row is pushed with its own window length
(an out-of-range parameter or output index raises, modelled as `none`; the
unreachable non-batched tensor state would raise assigning a longer row into
a tensor row slot). -/
def lz_cumulate (s : LZState) (output_ids : List Int) : Option LZState :=
  if s.batched then
    match s.Ws, s.lz_lookback_sizes with
    | WsRep.tensor rows, winlen :: _ =>
        if output_ids.length = rows.length then
          if winlen ≤ ((rows.headD []).length : Int) then
            some { s with
                   Ws := WsRep.tensor (List.zipWith (fun r t => r.tail ++ [t]) rows output_ids) }
          else
            some { s with
                   Ws := WsRep.tensor (List.zipWith (fun r t => r ++ [t]) rows output_ids) }
        else none
    | _, _ => none
  else
    match s.Ws with
    | WsRep.plist rows =>
        if rows.length ≤ s.lz_lookback_sizes.length ∧ rows.length ≤ output_ids.length then
          some { s with Ws := WsRep.plist ((List.range rows.length).map (fun i =>
                   pushR (s.lz_lookback_sizes.getD i 0) (rows.getD i []) (output_ids.getD i 0))) }
        else none
    | _ => none

/-- Iterated `_cumulate_output_tokens` over a list of decoding steps. -/
def lz_cumulates (s : LZState) (steps : List (List Int)) : Option LZState :=
  match steps with
  | [] => some s
  | out :: rest =>
      match lz_cumulate s out with
      | none => none
      | some s' => lz_cumulates s' rest

/-- The stored context of request `i`. -/
def stateRow (s : LZState) (i : Nat) : List Int :=
  (WsRows s.Ws).getD i []

/-- The content of a ring buffer of bound `winlen` after the tokens `toks`
have been pushed in order: the most recent `winlen` of them. -/
def ringRow (winlen : Int) (toks : List Int) : List Int :=
  toks.drop (toks.length - winlen.toNat)

/-- Model of advanced tensor indexing `t[keep_indices]` on the leading
dimension: selects the indexed entries, raising (``none``) on any
out-of-range index. -/
def lz_select {α : Type} (l : List α) (ks : List Nat) : Option (List α) :=
  ks.mapM (fun k => l[k]?)

/-- Model of `BatchedLZPenalizer._filter` (lz_penalty.py lines 229-235): the
context tensor and the three parameter tensors are index-selected in lockstep.
The `_batched` flag is carried over unchanged — the source contains no
recomputation.  When `self.Ws` is a python list (heterogeneous mode),
`self.Ws[keep_indices]` raises TypeError (list indices must be integers, not
a tensor), modelled as `none`. -/
def lz_filter (s : LZState) (keep_indices : List Nat) : Option LZState :=
  match s.Ws with
  | WsRep.plist _ => none
  | WsRep.tensor rows =>
      match lz_select rows keep_indices, lz_select s.lz_penalties keep_indices,
            lz_select s.lz_buffer_sizes keep_indices,
            lz_select s.lz_lookback_sizes keep_indices with
      | some rows', some pens', some bufs', some looks' =>
          some { lz_penalties := pens', lz_buffer_sizes := bufs',
                 lz_lookback_sizes := looks', batched := s.batched,
                 Ws := WsRep.tensor rows' }
      | _, _, _, _ => none

/-- Model of `BatchedLZPenalizer._merge` (lz_penalty.py lines 237-255): the
parameter tensors are concatenated, `_batched` is recomputed from the merged
parameters, and the contexts are concatenated — as one stacked tensor when
the merged batch is homogeneous (`torch.cat` raises when an operand is a
python list, or when the two stacks have different widths), else as a python
list of the rows of both operands.  `self.lz_lookback_sizes[0]` on an empty
merged batch raises IndexError, modelled as `none`. -/
def lz_merge (s their : LZState) : Option LZState :=
  let pens := s.lz_penalties ++ their.lz_penalties
  let bufs := s.lz_buffer_sizes ++ their.lz_buffer_sizes
  let looks := s.lz_lookback_sizes ++ their.lz_lookback_sizes
  match looks, bufs with
  | [], _ => none
  | _, [] => none
  | _ :: _, _ :: _ =>
      let batched := paramsHomogeneous looks bufs
      if batched then
        match s.Ws, their.Ws with
        | WsRep.tensor a, WsRep.tensor b =>
            if a.isEmpty ∨ b.isEmpty ∨ (a.headD []).length = (b.headD []).length then
              some { lz_penalties := pens, lz_buffer_sizes := bufs,
                     lz_lookback_sizes := looks, batched := batched,
                     Ws := WsRep.tensor (a ++ b) }
            else none
        | _, _ => none
      else
        some { lz_penalties := pens, lz_buffer_sizes := bufs,
               lz_lookback_sizes := looks, batched := batched,
               Ws := WsRep.plist (WsRows s.Ws ++ WsRows their.Ws) }

/-- Model of the in-place subtraction `logits.sub_(scaled_penalties)`
(line 225): defined when the two tensors have identical shape (the only case
the penalizer's data flow produces), raising otherwise. -/
noncomputable def tensorSub (a b : List (List ℝ)) : Option (List (List ℝ)) :=
  if a.length = b.length ∧ (List.zip a b).all (fun p => p.1.length == p.2.length) then
    some (List.zipWith (fun ra rb => List.zipWith (fun x y => x - y) ra rb) a b)
  else none

/-- Model of `BatchedLZPenalizer._apply` (lz_penalty.py lines 211-227):
`G_vocab = torch.arange(vocab_size)`; in batched mode the batched kernel runs
with `n = self.lz_buffer_sizes[0]` (IndexError on an empty parameter tensor
and torch's rejection of a negative unfold size are modelled as `none`), the
penalties are scaled row-wise by the per-request weights (a `(V,)` early
return broadcasts against `weights.unsqueeze(1)` to `(B, V)`), and the scaled
penalties are subtracted from the logits.  In heterogeneous mode `self.Ws` is
a python list and `compute_lz_penalty_naive` raises AttributeError on
`W_context.size(0)`, modelled as `none`. -/
noncomputable def lz_apply (vocab_size : Nat) (s : LZState) (logits : List (List ℝ)) :
    Option (List (List ℝ)) :=
  let G_vocab := (List.range vocab_size).map (fun k => Int.ofNat k)
  if s.batched then
    match s.Ws, s.lz_buffer_sizes with
    | WsRep.tensor rows, b0 :: _ =>
        if b0 < 0 then none
        else
          let penalties := compute_lz_penalty_batched rows G_vocab b0.toNat
          let scaled :=
            match penalties with
            | BatchedResult.vec v => s.lz_penalties.map (fun wgt => v.map (fun p => p * wgt))
            | BatchedResult.mat m =>
                List.zipWith (fun row wgt => row.map (fun p => p * wgt)) m s.lz_penalties
          tensorSub logits scaled
    | _, _ => none
  else none

/-- The window length parameter of request `i`, as stored by `_prepare`. -/
def reqWin (reqs : List SamplingParams) (i : Nat) : Int :=
  (reqs.map (fun r => r.lz_lookback_size)).getD i 0

/-- The tokens appended for request `i` over a list of decoding steps. -/
def stepTokens (steps : List (List Int)) (i : Nat) : List Int :=
  steps.map (fun st => st.getD i 0)

/-- Heterogeneous request pair: identical match lengths, different window
lengths. -/
def hetReqs : List SamplingParams := [⟨1, 2, 3⟩, ⟨1, 2, 4⟩]

/-- The state `_prepare` builds from `hetReqs`. -/
def hetState : LZState :=
  { lz_penalties := [1, 1], lz_buffer_sizes := [2, 2], lz_lookback_sizes := [3, 4],
    batched := false, Ws := WsRep.plist [[], []] }

/-- A prepared single-request homogeneous state with window length 3. -/
def homStateA : LZState :=
  { lz_penalties := [1], lz_buffer_sizes := [2], lz_lookback_sizes := [3],
    batched := true, Ws := WsRep.tensor [[]] }

/-- A prepared single-request homogeneous state with window length 4. -/
def homStateB : LZState :=
  { lz_penalties := [1], lz_buffer_sizes := [2], lz_lookback_sizes := [4],
    batched := true, Ws := WsRep.tensor [[]] }

/-- A prepared single-request state whose penalty weight is zero. -/
def zeroWeightState : LZState :=
  { lz_penalties := [0], lz_buffer_sizes := [1], lz_lookback_sizes := [2],
    batched := true, Ws := WsRep.tensor [[]] }

theorem torchClampInf_bounds (c : Option ℝ) (hi : ℝ) (hhi : 0 ≤ hi) :
    0 ≤ torchClampInf c 0 hi ∧ torchClampInf c 0 hi ≤ hi := by
  cases c with
  | none => exact ⟨hhi, le_refl hi⟩
  | some y =>
      refine ⟨le_min (le_max_right y 0) hhi, min_le_right _ _⟩

theorem logb_len_nonneg (G : List Int) (hG : 1 ≤ G.length) :
    0 ≤ Real.logb 2 (G.length : ℝ) := by
  apply Real.logb_nonneg (by norm_num)
  exact_mod_cast hG

theorem lz_penalty_val_bounds (W G : List Int) (n : Nat) (g : Int) (hG : 1 ≤ G.length) :
    0 ≤ lz_penalty_val W G n g ∧ lz_penalty_val W G n g ≤ Real.logb 2 (G.length : ℝ) := by
  have hb := torchClampInf_bounds (compute_lz_encoding_cost (lz_RP W n g))
    (Real.logb 2 (G.length : ℝ)) (logb_len_nonneg G hG)
  unfold lz_penalty_val
  constructor
  · linarith [hb.2]
  · linarith [hb.1]

theorem ringRow_length (winlen : Int) (toks : List Int) :
    (ringRow winlen toks).length = min toks.length winlen.toNat := by
  unfold ringRow
  rw [List.length_drop]
  omega

theorem pushR_ring (winlen : Int) (hw : 1 ≤ winlen) (toks : List Int) (t : Int) :
    pushR winlen (ringRow winlen toks) t = ringRow winlen (toks ++ [t]) := by
  have hlen : (ringRow winlen toks).length = min toks.length winlen.toNat :=
    ringRow_length winlen toks
  have hm : 1 ≤ winlen.toNat := by omega
  unfold pushR
  by_cases hcase : winlen.toNat ≤ toks.length
  · have hcond : winlen ≤ ((ringRow winlen toks).length : Int) := by
      rw [hlen]
      omega
    rw [if_pos hcond]
    unfold ringRow
    rw [List.tail_drop]
    have h1 : toks.length - winlen.toNat + 1 ≤ toks.length := by omega
    have h2 : (toks ++ [t]).length - winlen.toNat = toks.length - winlen.toNat + 1 := by
      rw [List.length_append]
      simp only [List.length_cons, List.length_nil]
      omega
    rw [h2, List.drop_append_of_le_length h1]
  · have hcond : ¬ winlen ≤ ((ringRow winlen toks).length : Int) := by
      rw [hlen]
      omega
    rw [if_neg hcond]
    unfold ringRow
    have h1 : toks.length - winlen.toNat = 0 := by omega
    have h2 : (toks ++ [t]).length - winlen.toNat = 0 := by
      rw [List.length_append]
      simp only [List.length_cons, List.length_nil]
      omega
    rw [h1, h2, List.drop_zero, List.drop_zero]

theorem foldl_pushR (winlen : Int) (hw : 1 ≤ winlen) (toks : List Int) :
    List.foldl (pushR winlen) [] toks = ringRow winlen toks := by
  induction toks using List.reverseRecOn with
  | nil => simp [ringRow]
  | append_singleton ts t ih =>
      rw [List.foldl_append, ih]
      simp only [List.foldl_cons, List.foldl_nil]
      exact pushR_ring winlen hw ts t

theorem zipWith_rows_facts (f : List Int → Int → List Int) (rows : List (List Int))
    (out : List Int) (hlen : out.length = rows.length)
    (c : Nat) (hc : ∀ r ∈ rows, ∀ t, (f r t).length = c) :
    (List.zipWith f rows out).length = rows.length ∧
    (∀ r ∈ List.zipWith f rows out, r.length = ((List.zipWith f rows out).headD []).length) ∧
    (∀ i, i < rows.length →
      (List.zipWith f rows out).getD i [] = f (rows.getD i []) (out.getD i 0)) := by
  have hzlen : (List.zipWith f rows out).length = rows.length := by
    rw [List.length_zipWith, hlen]
    omega
  have hall : ∀ r ∈ List.zipWith f rows out, r.length = c := by
    intro r hr
    obtain ⟨i, hi, hir⟩ := List.mem_iff_getElem.mp hr
    have : (List.zipWith f rows out)[i] = f rows[i] out[i] := List.getElem_zipWith
    rw [← hir, this]
    exact hc rows[i] (List.getElem_mem _) out[i]
  refine ⟨hzlen, ?_, ?_⟩
  · intro r hr
    rw [hall r hr]
    cases hz : List.zipWith f rows out with
    | nil => rw [hz] at hr; exact absurd hr (List.not_mem_nil r)
    | cons a l =>
        have ha : a ∈ List.zipWith f rows out := by
          rw [hz]; exact List.mem_cons_self a l
        simp only [List.headD_cons]
        rw [hall a ha]
  · intro i hi
    have hiz : i < (List.zipWith f rows out).length := by omega
    have hio : i < out.length := by omega
    rw [List.getD_eq_getElem _ _ hiz, List.getD_eq_getElem _ _ hi,
      List.getD_eq_getElem _ _ hio]
    exact List.getElem_zipWith

theorem cumulates_tensor (steps : List (List Int)) :
    ∀ (s : LZState) (rows : List (List Int)) (l0 : Int) (rest : List Int),
    s.batched = true →
    s.Ws = WsRep.tensor rows →
    s.lz_lookback_sizes = l0 :: rest →
    (∀ st ∈ steps, st.length = rows.length) →
    (∀ r ∈ rows, r.length = (rows.headD []).length) →
    ∃ rows', lz_cumulates s steps = some { s with Ws := WsRep.tensor rows' } ∧
      rows'.length = rows.length ∧
      (∀ r ∈ rows', r.length = (rows'.headD []).length) ∧
      (∀ i, i < rows.length →
        rows'.getD i [] = List.foldl (pushR l0) (rows.getD i [])
          (steps.map (fun st => st.getD i 0))) := by
  induction steps with
  | nil =>
      intro s rows l0 rest hb hWs hlook _ heq
      refine ⟨rows, ?_, rfl, heq, fun i _ => rfl⟩
      simp only [lz_cumulates]
      rw [← hWs]
  | cons out rest' ih =>
      intro s rows l0 rest hb hWs hlook hsteps heq
      have hout : out.length = rows.length := hsteps out (List.mem_cons_self out rest')
      by_cases hcond : l0 ≤ (((rows.headD []).length : Nat) : Int)
      · -- sliding branch: every row drops its oldest token
        have hfacts := zipWith_rows_facts (fun r t => r.tail ++ [t]) rows out hout
          ((rows.headD []).length - 1 + 1)
          (by
            intro r hr t
            rw [List.length_append, List.length_tail, heq r hr]
            rfl)
        set rows1 := List.zipWith (fun r t => r.tail ++ [t]) rows out with hrows1
        have hstep : lz_cumulate s out = some { s with Ws := WsRep.tensor rows1 } := by
          simp only [lz_cumulate, hb, hWs, hlook, if_true]
          rw [if_pos hout, if_pos hcond]
        obtain ⟨rows'', hcum, hlen'', heq'', hget''⟩ :=
          ih { s with Ws := WsRep.tensor rows1 } rows1 l0 rest hb rfl hlook
            (by
              intro st hst
              rw [hfacts.1]
              exact hsteps st (List.mem_cons_of_mem out hst))
            hfacts.2.1
        refine ⟨rows'', ?_, by rw [hlen'', hfacts.1], heq'', ?_⟩
        · simp only [lz_cumulates, hstep]
          exact hcum
        · intro i hi
          have hi1 : i < rows1.length := by rw [hfacts.1]; exact hi
          have hmem : rows.getD i [] ∈ rows := by
            rw [List.getD_eq_getElem _ _ hi]
            exact List.getElem_mem _
          rw [hget'' i hi1, hfacts.2.2 i hi]
          simp only [List.map_cons, List.foldl_cons]
          congr 1
          unfold pushR
          rw [if_pos (by rw [heq (rows.getD i []) hmem]; exact hcond)]
      · -- appending branch: the window is not yet full
        have hfacts := zipWith_rows_facts (fun r t => r ++ [t]) rows out hout
          ((rows.headD []).length + 1)
          (by
            intro r hr t
            rw [List.length_append, heq r hr]
            rfl)
        set rows1 := List.zipWith (fun r t => r ++ [t]) rows out with hrows1
        have hstep : lz_cumulate s out = some { s with Ws := WsRep.tensor rows1 } := by
          simp only [lz_cumulate, hb, hWs, hlook, if_true]
          rw [if_pos hout, if_neg hcond]
        obtain ⟨rows'', hcum, hlen'', heq'', hget''⟩ :=
          ih { s with Ws := WsRep.tensor rows1 } rows1 l0 rest hb rfl hlook
            (by
              intro st hst
              rw [hfacts.1]
              exact hsteps st (List.mem_cons_of_mem out hst))
            hfacts.2.1
        refine ⟨rows'', ?_, by rw [hlen'', hfacts.1], heq'', ?_⟩
        · simp only [lz_cumulates, hstep]
          exact hcum
        · intro i hi
          have hi1 : i < rows1.length := by rw [hfacts.1]; exact hi
          have hmem : rows.getD i [] ∈ rows := by
            rw [List.getD_eq_getElem _ _ hi]
            exact List.getElem_mem _
          rw [hget'' i hi1, hfacts.2.2 i hi]
          simp only [List.map_cons, List.foldl_cons]
          congr 1
          unfold pushR
          rw [if_neg (by rw [heq (rows.getD i []) hmem]; exact hcond)]

theorem cumulates_plist (steps : List (List Int)) :
    ∀ (s : LZState) (rows : List (List Int)),
    s.batched = false →
    s.Ws = WsRep.plist rows →
    rows.length ≤ s.lz_lookback_sizes.length →
    (∀ st ∈ steps, rows.length ≤ st.length) →
    ∃ rows', lz_cumulates s steps = some { s with Ws := WsRep.plist rows' } ∧
      rows'.length = rows.length ∧
      (∀ i, i < rows.length →
        rows'.getD i [] = List.foldl (pushR (s.lz_lookback_sizes.getD i 0)) (rows.getD i [])
          (steps.map (fun st => st.getD i 0))) := by
  induction steps with
  | nil =>
      intro s rows hb hWs _ _
      refine ⟨rows, ?_, rfl, fun i _ => rfl⟩
      simp only [lz_cumulates]
      rw [← hWs]
  | cons out rest' ih =>
      intro s rows hb hWs hlook hsteps
      have hout : rows.length ≤ out.length := hsteps out (List.mem_cons_self out rest')
      set rows1 := (List.range rows.length).map (fun i =>
        pushR (s.lz_lookback_sizes.getD i 0) (rows.getD i []) (out.getD i 0)) with hrows1
      have hlen1 : rows1.length = rows.length := by
        rw [hrows1, List.length_map, List.length_range]
      have hget1 : ∀ i, i < rows.length →
          rows1.getD i [] =
            pushR (s.lz_lookback_sizes.getD i 0) (rows.getD i []) (out.getD i 0) := by
        intro i hi
        have hi1 : i < rows1.length := by omega
        rw [List.getD_eq_getElem _ _ hi1]
        simp only [hrows1, List.getElem_map, List.getElem_range]
      have hstep : lz_cumulate s out = some { s with Ws := WsRep.plist rows1 } := by
        simp only [lz_cumulate, hb, hWs, if_false, Bool.false_eq_true]
        rw [if_pos ⟨hlook, hout⟩]
      obtain ⟨rows'', hcum, hlen'', hget''⟩ :=
        ih { s with Ws := WsRep.plist rows1 } rows1 hb rfl
          (by rw [hlen1]; exact hlook)
          (by
            intro st hst
            rw [hlen1]
            exact hsteps st (List.mem_cons_of_mem out hst))
      refine ⟨rows'', ?_, by rw [hlen'', hlen1], ?_⟩
      · simp only [lz_cumulates, hstep]
        exact hcum
      · intro i hi
        have hi1 : i < rows1.length := by omega
        rw [hget'' i hi1, hget1 i hi]
        simp only [List.map_cons, List.foldl_cons]

theorem paramsHomogeneous_getD (looks bufs : List Int)
    (h : paramsHomogeneous looks bufs = true) (i : Nat) (hi : i < looks.length) :
    looks.getD i 0 = looks.headD 0 := by
  unfold paramsHomogeneous at h
  rw [Bool.and_eq_true] at h
  have h1 := h.1
  rw [List.all_eq_true] at h1
  have hmem : looks.getD i 0 ∈ looks := by
    rw [List.getD_eq_getElem _ _ hi]
    exact List.getElem_mem _
  exact of_decide_eq_true (h1 _ hmem)

theorem cum_prepared_row (reqs : List SamplingParams) (s0 : LZState)
    (steps : List (List Int)) (i : Nat)
    (hprep : lz_prepare reqs = some s0)
    (hsteps : ∀ st ∈ steps, st.length = reqs.length)
    (hi : i < reqs.length) :
    ∃ s1, lz_cumulates s0 steps = some s1 ∧
      stateRow s1 i = List.foldl (pushR (reqWin reqs i)) [] (stepTokens steps i) := by
  cases reqs with
  | nil => simp [lz_prepare] at hprep
  | cons r0 rs =>
      simp only [lz_prepare] at hprep
      have hs0 := (Option.some.inj hprep).symm
      have hlooks : s0.lz_lookback_sizes = (r0 :: rs).map (fun r => r.lz_lookback_size) := by
        rw [hs0]
      have hbat : s0.batched = paramsHomogeneous
          ((r0 :: rs).map (fun r => r.lz_lookback_size))
          ((r0 :: rs).map (fun r => r.lz_buffer_size)) := by
        rw [hs0]
      have hB : (List.replicate ((r0 :: rs).length) ([] : List Int)).length
          = (r0 :: rs).length := List.length_replicate _ _
      have hrepGet : ∀ j, j < (r0 :: rs).length →
          (List.replicate ((r0 :: rs).length) ([] : List Int)).getD j [] = [] := by
        intro j hj
        rw [List.getD_eq_getElem _ _ (by rw [hB]; exact hj)]
        simp
      by_cases hbool : s0.batched = true
      · -- homogeneous: `_prepare` stacks the contexts into a tensor
        have hhom : paramsHomogeneous ((r0 :: rs).map (fun r => r.lz_lookback_size))
            ((r0 :: rs).map (fun r => r.lz_buffer_size)) = true := by
          rw [← hbat]; exact hbool
        have hWsT : s0.Ws = WsRep.tensor (List.replicate ((r0 :: rs).length) []) := by
          rw [hs0]
          exact if_pos hhom
        obtain ⟨rows', hcum, _, _, hget⟩ :=
          cumulates_tensor steps s0 (List.replicate ((r0 :: rs).length) [])
            r0.lz_lookback_size (rs.map (fun r => r.lz_lookback_size))
            hbool hWsT (by rw [hlooks, List.map_cons])
            (by
              intro st hst
              rw [hB]
              exact hsteps st hst)
            (by
              intro r hr
              rw [List.eq_of_mem_replicate hr]
              simp only [List.length_cons, List.replicate_succ, List.headD_cons])
        refine ⟨_, hcum, ?_⟩
        have hwin : reqWin (r0 :: rs) i = r0.lz_lookback_size := by
          unfold reqWin
          rw [paramsHomogeneous_getD _ _ hhom i
            (by rw [List.length_map]; exact hi)]
          simp only [List.map_cons, List.headD_cons]
        rw [hwin]
        simp only [stateRow, WsRows]
        rw [hget i (by rw [hB]; exact hi), hrepGet i hi]
        rfl
      · -- heterogeneous: `_prepare` keeps a python list of contexts
        have hbf : s0.batched = false := Bool.eq_false_iff.mpr hbool
        have hnothom : ¬ paramsHomogeneous ((r0 :: rs).map (fun r => r.lz_lookback_size))
            ((r0 :: rs).map (fun r => r.lz_buffer_size)) = true := by
          rw [← hbat]; exact hbool
        have hWsP : s0.Ws = WsRep.plist (List.replicate ((r0 :: rs).length) []) := by
          rw [hs0]
          exact if_neg hnothom
        obtain ⟨rows', hcum, _, hget⟩ :=
          cumulates_plist steps s0 (List.replicate ((r0 :: rs).length) [])
            hbf hWsP
            (by rw [hB, hlooks, List.length_map])
            (by
              intro st hst
              rw [hB, hsteps st hst])
        refine ⟨_, hcum, ?_⟩
        simp only [stateRow, WsRows]
        rw [hget i (by rw [hB]; exact hi), hrepGet i hi, hlooks]
        rfl

/-- C7: for every prepared penalizer instance and request index `i` (with the
documented positive window length), after `cumulate_output_tokens` has been
invoked `k > window_len[i]` times the stored context of request `i` has
length exactly `window_len[i]` and consists of the `window_len[i]` most
recently appended tokens in order (`ringRow` drops the oldest tokens first),
and `len(context[i]) ≤ window_len[i]` holds after every operation. -/
theorem claim_C7_ring_buffer (reqs : List SamplingParams) (s0 : LZState)
    (steps : List (List Int)) (i : Nat)
    (hprep : lz_prepare reqs = some s0)
    (hsteps : ∀ st ∈ steps, st.length = reqs.length)
    (hi : i < reqs.length)
    (hwin : 1 ≤ reqWin reqs i) :
    (∃ s1, lz_cumulates s0 steps = some s1 ∧
       stateRow s1 i = ringRow (reqWin reqs i) (stepTokens steps i) ∧
       ((reqWin reqs i).toNat < steps.length →
         (stateRow s1 i).length = (reqWin reqs i).toNat)) ∧
    (∀ k, ∃ sk, lz_cumulates s0 (steps.take k) = some sk ∧
       ((stateRow sk i).length : Int) ≤ reqWin reqs i) := by
  constructor
  · obtain ⟨s1, hcum, hrow⟩ := cum_prepared_row reqs s0 steps i hprep hsteps hi
    refine ⟨s1, hcum, ?_, ?_⟩
    · rw [hrow, foldl_pushR _ hwin]
    · intro hk
      rw [hrow, foldl_pushR _ hwin, ringRow_length]
      have hlen : (stepTokens steps i).length = steps.length := List.length_map _ _
      omega
  · intro k
    obtain ⟨sk, hcum, hrow⟩ := cum_prepared_row reqs s0 (steps.take k) i hprep
      (fun st hst => hsteps st (List.mem_of_mem_take hst)) hi
    refine ⟨sk, hcum, ?_⟩
    rw [hrow, foldl_pushR _ hwin, ringRow_length]
    omega

/-- Witness for C7 at a concrete input: one request with window length 2,
three pushed tokens. -/
theorem claim_C7_witness :
    (1 : Int) ≤ reqWin [⟨1, 1, 2⟩] 0 ∧
    (∃ s1, lz_cumulates
        { lz_penalties := [1], lz_buffer_sizes := [1], lz_lookback_sizes := [2],
          batched := true, Ws := WsRep.tensor [[]] }
        [[10], [20], [30]] = some s1 ∧
      stateRow s1 0 = ringRow (reqWin [⟨1, 1, 2⟩] 0) (stepTokens [[10], [20], [30]] 0) ∧
      ((reqWin [⟨1, 1, 2⟩] 0).toNat < ([[10], [20], [30]] : List (List Int)).length →
        (stateRow s1 0).length = (reqWin [⟨1, 1, 2⟩] 0).toNat)) :=
  ⟨by decide,
    (claim_C7_ring_buffer [⟨1, 1, 2⟩] _ [[10], [20], [30]] 0 rfl (by decide) (by decide)
      (by decide)).1⟩

theorem lz_select_mem {α : Type} (l : List α) (ks : List Nat) (l' : List α)
    (h : lz_select l ks = some l') : ∀ x ∈ l', x ∈ l := by
  induction ks generalizing l' with
  | nil =>
      simp only [lz_select, List.mapM_nil] at h
      cases Option.some.inj h
      intro x hx
      exact absurd hx (List.not_mem_nil x)
  | cons k ks ih =>
      simp only [lz_select, List.mapM_cons] at h
      cases hk : l[k]? with
      | none => rw [hk] at h; simp at h
      | some a =>
          rw [hk] at h
          cases hrest : List.mapM (fun k => l[k]?) ks with
          | none => rw [hrest] at h; simp at h
          | some as =>
              rw [hrest] at h
              simp only [Option.bind_some, Option.pure_def] at h
              cases Option.some.inj h
              intro x hx
              rcases List.mem_cons.mp hx with hxa | hxas
              · subst hxa
                exact List.getElem?_mem hk
              · exact ih as hrest x hxas

theorem all_eq_headD_of_mem (l l' : List Int)
    (h : l.all (fun x => decide (x = l.headD 0)) = true)
    (hsub : ∀ x ∈ l', x ∈ l) :
    l'.all (fun x => decide (x = l'.headD 0)) = true := by
  rw [List.all_eq_true] at h ⊢
  intro x hx
  cases l' with
  | nil => exact absurd hx (List.not_mem_nil x)
  | cons a t =>
      have hxl := of_decide_eq_true (h x (hsub x hx))
      have hal := of_decide_eq_true (h a (hsub a (List.mem_cons_self a t)))
      simp only [List.headD_cons]
      exact decide_eq_true (hxl.trans hal.symm)

theorem paramsHomogeneous_of_subsets (looks bufs looks' bufs' : List Int)
    (h : paramsHomogeneous looks bufs = true)
    (hl : ∀ x ∈ looks', x ∈ looks) (hb : ∀ x ∈ bufs', x ∈ bufs) :
    paramsHomogeneous looks' bufs' = true := by
  unfold paramsHomogeneous at h ⊢
  rw [Bool.and_eq_true] at h
  rw [Bool.and_eq_true]
  exact ⟨all_eq_headD_of_mem _ _ h.1 hl, all_eq_headD_of_mem _ _ h.2 hb⟩

/-- C8 (counterexample): on the heterogeneous prepared instance `hetState`
(reachable via `_prepare` from `hetReqs`), `_filter` does not complete at all
— `self.Ws[keep_indices]` raises TypeError on a python list — so after the
call the homogeneous flag has not been recomputed (the kept single-request
subset would be homogeneous, yet no state with a recomputed flag results). -/
theorem claim_C8_counterexample :
    lz_prepare hetReqs = some hetState ∧
    ¬ ∃ s', lz_filter hetState [0] = some s' ∧
        s'.batched = paramsHomogeneous s'.lz_lookback_sizes s'.lz_buffer_sizes := by
  refine ⟨rfl, ?_⟩
  rintro ⟨s', hs', -⟩
  rw [show lz_filter hetState [0] = none from rfl] at hs'
  exact Option.noConfusion hs'

/-- C8 (amended): `_merge` recomputes the homogeneous flag, which then exactly
reflects the merged parameters; `_filter` never recomputes the flag (it is
carried over unchanged), fails with a TypeError on every heterogeneous
(list-mode) instance, and on a homogeneous batched instance the carried-over
flag happens to remain exact because filtering preserves parameter
equality. -/
theorem claim_C8_homogeneous_flag :
    (∀ s t s', lz_merge s t = some s' →
       s'.batched = paramsHomogeneous s'.lz_lookback_sizes s'.lz_buffer_sizes) ∧
    (∀ s ks s', lz_filter s ks = some s' → s'.batched = s.batched) ∧
    (∀ s ks rows, s.Ws = WsRep.plist rows → lz_filter s ks = none) ∧
    (∀ s ks s' rows, s.Ws = WsRep.tensor rows → s.batched = true →
       paramsHomogeneous s.lz_lookback_sizes s.lz_buffer_sizes = true →
       lz_filter s ks = some s' →
       s'.batched = paramsHomogeneous s'.lz_lookback_sizes s'.lz_buffer_sizes) := by
  have hfilter : ∀ s ks s', lz_filter s ks = some s' →
      ∃ rows rows' pens' bufs' looks',
        s.Ws = WsRep.tensor rows ∧
        lz_select rows ks = some rows' ∧
        lz_select s.lz_penalties ks = some pens' ∧
        lz_select s.lz_buffer_sizes ks = some bufs' ∧
        lz_select s.lz_lookback_sizes ks = some looks' ∧
        s' = { lz_penalties := pens', lz_buffer_sizes := bufs',
               lz_lookback_sizes := looks', batched := s.batched,
               Ws := WsRep.tensor rows' } := by
    intro s ks s' h
    unfold lz_filter at h
    split at h
    · exact Option.noConfusion h
    · rename_i rows hWs
      split at h
      · rename_i rows' pens' bufs' looks' h1 h2 h3 h4
        cases Option.some.inj h
        exact ⟨rows, rows', pens', bufs', looks', hWs, h1, h2, h3, h4, rfl⟩
      · exact Option.noConfusion h
  refine ⟨?_, ?_, ?_, ?_⟩
  · -- merge always stores the recomputed homogeneity in `batched`
    intro s t s' h
    simp only [lz_merge] at h
    repeat' split at h
    all_goals first
      | exact Option.noConfusion h
      | (cases Option.some.inj h; rfl)
  · -- filter carries the flag over unchanged
    intro s ks s' h
    obtain ⟨rows, rows', pens', bufs', looks', hWs, h1, h2, h3, h4, hs'⟩ := hfilter s ks s' h
    rw [hs']
  · -- filter on a heterogeneous (list-mode) instance raises
    intro s ks rows hWs
    unfold lz_filter
    rw [hWs]
  · -- filter on a homogeneous batched instance keeps the flag exact
    intro s ks s' rows hWs hbat hhom h
    obtain ⟨rows0, rows', pens', bufs', looks', hWs0, h1, h2, h3, h4, hs'⟩ := hfilter s ks s' h
    rw [hs']
    have hsub := paramsHomogeneous_of_subsets s.lz_lookback_sizes s.lz_buffer_sizes
      looks' bufs' hhom (lz_select_mem _ _ _ h4) (lz_select_mem _ _ _ h3)
    rw [hbat, hsub]

/-- Witness for C8: merging two homogeneous single-request instances with
different window lengths yields a state whose recomputed flag reflects the
heterogeneous merged parameters. -/
theorem claim_C8_witness :
    lz_merge homStateA homStateB = some
      { lz_penalties := [1, 1], lz_buffer_sizes := [2, 2], lz_lookback_sizes := [3, 4],
        batched := false, Ws := WsRep.plist [[], []] } ∧
    (false : Bool) = paramsHomogeneous [3, 4] [2, 2] :=
  ⟨rfl, claim_C8_homogeneous_flag.1 homStateA homStateB _ rfl⟩

/-- C9 (code refutation): `_prepare` performs no validation whatsoever.  A
request with match-length parameter 0 (≤ 0), and a request whose window
length (2) is smaller than its match-length parameter (3), are both accepted:
the parameters are stored and a fully formed state is returned instead of an
error being raised at prepare time. -/
theorem claim_C9_prepare_accepts_invalid :
    lz_prepare [⟨1, 0, 5⟩] = some
      { lz_penalties := [1], lz_buffer_sizes := [0], lz_lookback_sizes := [5],
        batched := true, Ws := WsRep.tensor [[]] } ∧
    lz_prepare [⟨1, 3, 2⟩] = some
      { lz_penalties := [1], lz_buffer_sizes := [3], lz_lookback_sizes := [2],
        batched := true, Ws := WsRep.tensor [[]] } :=
  ⟨rfl, rfl⟩

/-- C6 (code refutation): for the short context `[1, 2]` with `n = 3` and the
ten-token vocabulary, the stateless kernel raises (its early return executes
`torch.zeros(G_vocab)`, passing the vocabulary tensor as the size argument)
and the naive strategy therefore raises as well; only the batched kernel
returns the length-10 zero vector the claim promises for both strategies. -/
theorem claim_C6_short_context :
    compute_lz_penalty_stateless [1, 2] vocab10 3 = none ∧
    compute_lz_penalty_naive [[1, 2]] vocab10 [3] = none ∧
    compute_lz_penalty_batched [[1, 2]] vocab10 3 =
      BatchedResult.vec (List.replicate 10 0) :=
  ⟨rfl, rfl, rfl⟩

/-- C1 (code refutation): on a homogeneous single-request batch with context
length 8 > n = 2 and the ten-token vocabulary, `compute_lz_penalty_naive`
raises — the loop assigns the length-10 stateless penalty vector into the
scalar slot `penalties[i]` — while `compute_lz_penalty_batched` returns a
penalty matrix, so the two strategies cannot agree within any tolerance. -/
theorem claim_C1_naive_raises :
    compute_lz_penalty_naive [[1, 2, 3, 4, 5, 1, 2, 3]] vocab10 [2] = none ∧
    ∃ m, compute_lz_penalty_batched [[1, 2, 3, 4, 5, 1, 2, 3]] vocab10 2 =
      BatchedResult.mat m := by
  constructor
  · rfl
  · exact ⟨_, rfl⟩

theorem dropLast_drop_take (W : List Int) (j n : Nat) (h : j + n ≤ W.length - 1) :
    ((W.dropLast).drop j).take n = (W.drop j).take n := by
  rw [List.dropLast_eq_take, List.drop_take, List.take_take]
  congr 1
  omega

/-- C3 (counterexample): for the context `[1,2,3,4,2,3,4,5]` (length 8) with
`n = 3` the kernel forms 5 candidate windows, not `w - n - 1 = 4` as the
claim states. -/
theorem claim_C3_counterexample :
    (lz_windows ctx8 3).length = 5 ∧
    ¬ (lz_windows ctx8 3).length = ctx8.length - 3 - 1 := by
  decide

/-- C3 (amended): for `w > n` the kernel forms exactly `w - n` candidate
windows (one per continuation token), each being the contiguous length-`n`
slice of the context starting at offset `j` — drawn from the context with its
final token excluded; when `w ≤ n` no window is formed: the batched kernel
short-circuits to the zero vector and the stateless kernel returns before
reaching the window construction (raising in its `torch.zeros` call). -/
theorem claim_C3_window_count (W G : List Int) (n : Nat) (hn : 0 < n) :
    (n < W.length →
      (lz_windows W n).length = W.length - n ∧
      ∀ j, j < W.length - n →
        (lz_windows W n).getD j [] = (W.drop j).take n ∧
        ((W.drop j).take n).length = n) ∧
    (W.length ≤ n →
      compute_lz_penalty_stateless W G n = none ∧
      compute_lz_penalty_batched [W] G n = BatchedResult.vec (G.map (fun _ => 0))) := by
  constructor
  · intro hw
    have hcount : (lz_windows W n).length = W.length - n := by
      unfold lz_windows slidingWindows
      rw [List.length_map, List.length_range, List.length_dropLast]
      omega
    refine ⟨hcount, ?_⟩
    intro j hj
    constructor
    · rw [List.getD_eq_getElem _ _ (by rw [hcount]; exact hj)]
      unfold lz_windows slidingWindows
      simp only [List.getElem_map, List.getElem_range]
      exact dropLast_drop_take W j n (by omega)
    · rw [List.length_take, List.length_drop]
      omega
  · intro hw
    constructor
    · simp [compute_lz_penalty_stateless, hw]
    · unfold compute_lz_penalty_batched
      rw [if_pos (by simpa using hw)]

/-- Witness for C3 (amended) at the concrete scenario context: 5 = 8 - 3
windows, each the length-3 slice at its offset. -/
theorem claim_C3_witness :
    0 < 3 ∧
    ((lz_windows ctx8 3).length = ctx8.length - 3 ∧
      ∀ j, j < ctx8.length - 3 →
        (lz_windows ctx8 3).getD j [] = (ctx8.drop j).take 3 ∧
        ((ctx8.drop j).take 3).length = 3) :=
  ⟨by decide, (claim_C3_window_count ctx8 vocab10 3 (by decide)).1 (by decide)⟩

theorem max?_eq_some_of_bound (x : List Int) (M : Int) (h1 : M ∈ x)
    (h2 : ∀ a ∈ x, a ≤ M) : x.max? = some M := by
  rw [@List.max?_eq_some_iff Int M _ _ ⟨fun h1 h2 => le_antisymm h1 h2⟩
    (fun a => le_refl a) (fun a b => max_choice a b) (fun a b c => max_le_iff)]
  exact ⟨h1, h2⟩

/-- C4: `compute_lz_encoding_cost` returns, per row, `log2` of the minimum
distance (distance `x.length - j`, so the most recent position has distance 1)
among the entries attaining the row's maximum positive value — the cost is
derived solely from the distances of the longest matches, shorter matches'
distances being filtered out — and is infinite (`none`) when no entry is
positive. -/
theorem claim_C4_encoding_cost (x : List Int) :
    ((∀ a ∈ x, a ≤ 0) → compute_lz_encoding_cost x = none) ∧
    (∀ M : Int, M ∈ x → 0 < M → (∀ a ∈ x, a ≤ M) →
      ∃ d, (bestMatchDistances x M).min? = some d ∧
        (∀ d' ∈ bestMatchDistances x M, d ≤ d') ∧
        compute_lz_encoding_cost x = some (Real.logb 2 (d : ℝ))) := by
  constructor
  · intro hnonpos
    unfold compute_lz_encoding_cost
    cases hmax : x.max? with
    | none => simp [lz_minBestDist, hmax]
    | some m =>
        have hfm : ((List.range x.length).filterMap
            (fun j => if 0 < x.getD j 0 ∧ x.getD j 0 = m then some (x.length - j)
              else none)) = [] := by
          rw [List.filterMap_eq_nil]
          intro j hj
          have hjx : j < x.length := List.mem_range.mp hj
          have hmem : x.getD j 0 ∈ x := by
            rw [List.getD_eq_getElem _ _ hjx]
            exact List.getElem_mem _
          rw [if_neg]
          rintro ⟨hpos, -⟩
          exact absurd (hnonpos _ hmem) (by omega)
        rw [show lz_minBestDist x = ((List.range x.length).filterMap
            (fun j => if 0 < x.getD j 0 ∧ x.getD j 0 = m then some (x.length - j)
              else none)).min? from by simp only [lz_minBestDist, hmax]]
        rw [hfm]
        rfl
  · intro M hM hMpos hMmax
    have hmax : x.max? = some M := max?_eq_some_of_bound x M hM hMmax
    have hcongr : ((List.range x.length).filterMap
        (fun j => if 0 < x.getD j 0 ∧ x.getD j 0 = M then some (x.length - j)
          else none)) = bestMatchDistances x M := by
      unfold bestMatchDistances
      apply List.filterMap_congr
      intro j hj
      by_cases hv : x.getD j 0 = M
      · rw [if_pos ⟨by omega, hv⟩, if_pos hv]
      · rw [if_neg (by rintro ⟨-, h⟩; exact hv h), if_neg hv]
    obtain ⟨jm, hjm, hjx⟩ := List.mem_iff_getElem.mp hM
    have hmem : (x.length - jm) ∈ bestMatchDistances x M := by
      unfold bestMatchDistances
      apply List.mem_filterMap.mpr
      refine ⟨jm, List.mem_range.mpr hjm, ?_⟩
      rw [if_pos (by rw [List.getD_eq_getElem _ _ hjm]; exact hjx)]
    cases hmin : (bestMatchDistances x M).min? with
    | none =>
        rw [List.min?_eq_none_iff] at hmin
        rw [hmin] at hmem
        exact absurd hmem (List.not_mem_nil _)
    | some d =>
        refine ⟨d, rfl, ?_, ?_⟩
        · exact ((List.min?_eq_some_iff (fun a => le_refl a) (fun a b => min_choice a b)
            (fun a b c => le_min_iff)).mp hmin).2
        · unfold compute_lz_encoding_cost
          simp only [lz_minBestDist, hmax, hcongr, hmin, Option.map_some']

/-- Witness for C4 at the spec's tie-break scenario: matches of length 3 (at
distances 4 and 1) and of length 5 (at distance 3); the cost comes from the
length-5 match alone. -/
theorem claim_C4_witness :
    ((5 : Int) ∈ ([3, 5, 0, 3] : List Int) ∧ (0 : Int) < 5 ∧
      ∀ a ∈ ([3, 5, 0, 3] : List Int), a ≤ 5) ∧
    ∃ d, (bestMatchDistances [3, 5, 0, 3] 5).min? = some d ∧
      (∀ d' ∈ bestMatchDistances [3, 5, 0, 3] 5, d ≤ d') ∧
      compute_lz_encoding_cost [3, 5, 0, 3] = some (Real.logb 2 (d : ℝ)) :=
  ⟨⟨by decide, by decide, by decide⟩,
    (claim_C4_encoding_cost [3, 5, 0, 3]).2 5 (by decide) (by decide) (by decide)⟩

theorem penalty_form_bounds (c : Option ℝ) (G : List Int) (hG : 1 ≤ G.length) :
    0 ≤ Real.logb 2 (G.length : ℝ) - torchClampInf c 0 (Real.logb 2 (G.length : ℝ)) ∧
    Real.logb 2 (G.length : ℝ) - torchClampInf c 0 (Real.logb 2 (G.length : ℝ)) ≤
      Real.logb 2 (G.length : ℝ) := by
  have hb := torchClampInf_bounds c (Real.logb 2 (G.length : ℝ)) (logb_len_nonneg G hG)
  constructor
  · linarith [hb.2]
  · linarith [hb.1]

/-- C5: every penalty value produced by either kernel strategy lies in
`[0, log2 V]` — the clamp keeps the encoding cost within `[0, log2 V]` and the
penalty is `log2 V` minus the clamped cost; the batched early return yields
zeros, also in range. -/
theorem claim_C5_penalty_range (W : List Int) (Wb : List (List Int)) (G : List Int)
    (n : Nat) (hG : 1 ≤ G.length) (hn : 1 ≤ n) :
    (∀ pen, compute_lz_penalty_stateless W G n = some pen →
      ∀ v ∈ pen, 0 ≤ v ∧ v ≤ Real.logb 2 (G.length : ℝ)) ∧
    (∀ v ∈ (compute_lz_penalty_batched Wb G n).values,
      0 ≤ v ∧ v ≤ Real.logb 2 (G.length : ℝ)) := by
  constructor
  · intro pen hpen v hv
    unfold compute_lz_penalty_stateless at hpen
    by_cases hw : W.length ≤ n
    · rw [if_pos hw] at hpen
      exact Option.noConfusion hpen
    · rw [if_neg hw] at hpen
      cases Option.some.inj hpen
      obtain ⟨g, hg, hgv⟩ := List.mem_map.mp hv
      subst hgv
      exact penalty_form_bounds _ G hG
  · intro v hv
    unfold compute_lz_penalty_batched at hv
    by_cases hw : (Wb.headD []).length ≤ n
    · rw [if_pos hw] at hv
      simp only [BatchedResult.values] at hv
      obtain ⟨g, hg, hgv⟩ := List.mem_map.mp hv
      subst hgv
      exact ⟨le_refl 0, logb_len_nonneg G hG⟩
    · rw [if_neg hw] at hv
      simp only [BatchedResult.values] at hv
      obtain ⟨row, hrow, hvrow⟩ := List.mem_flatten.mp hv
      obtain ⟨b, hbmem, hbrow⟩ := List.mem_map.mp hrow
      subst hbrow
      obtain ⟨g, hg, hgv⟩ := List.mem_map.mp hvrow
      subst hgv
      exact penalty_form_bounds _ G hG

/-- Witness for C5 at a concrete input: context `[1, 2, 3]`, one-row batch,
two-token vocabulary, `n = 1`. -/
theorem claim_C5_witness :
    (1 ≤ ([0, 1] : List Int).length ∧ 1 ≤ 1) ∧
    ((∀ pen, compute_lz_penalty_stateless [1, 2, 3] [0, 1] 1 = some pen →
      ∀ v ∈ pen, 0 ≤ v ∧ v ≤ Real.logb 2 (([0, 1] : List Int).length : ℝ)) ∧
    (∀ v ∈ (compute_lz_penalty_batched [[1, 2, 3]] [0, 1] 1).values,
      0 ≤ v ∧ v ≤ Real.logb 2 (([0, 1] : List Int).length : ℝ))) :=
  ⟨⟨by decide, by decide⟩,
    claim_C5_penalty_range [1, 2, 3] [[1, 2, 3]] [0, 1] 1 (by decide) (by decide)⟩

theorem zipWith_sub_zero (l z : List ℝ) (hlen : z.length = l.length)
    (hz : ∀ x ∈ z, x = 0) : List.zipWith (fun x y => x - y) l z = l := by
  induction l generalizing z with
  | nil => simp
  | cons a t ih =>
      cases z with
      | nil => simp at hlen
      | cons b u =>
          simp only [List.zipWith_cons_cons]
          rw [hz b (List.mem_cons_self b u), sub_zero]
          rw [ih u (by simpa using hlen) (fun x hx => hz x (List.mem_cons_of_mem b hx))]

theorem tensorSub_zero_row (logits scaled : List (List ℝ)) (i : Nat)
    (hlen : scaled.length = logits.length)
    (hrowlen : ∀ j, j < logits.length →
      (scaled.getD j []).length = (logits.getD j []).length)
    (hzero : ∀ x ∈ scaled.getD i [], x = 0)
    (hi : i < logits.length) :
    ∃ out, tensorSub logits scaled = some out ∧ out.getD i [] = logits.getD i [] := by
  have hall : (List.zip logits scaled).all (fun p => p.1.length == p.2.length) = true := by
    rw [List.all_eq_true]
    intro p hp
    obtain ⟨j, hj, hjp⟩ := List.mem_iff_getElem.mp hp
    have hjlen : j < logits.length := by
      rw [List.length_zip] at hj
      omega
    have hjs : j < scaled.length := by
      rw [List.length_zip] at hj
      omega
    have : (List.zip logits scaled)[j] = (logits[j], scaled[j]) := List.getElem_zip
    rw [← hjp, this]
    have := hrowlen j hjlen
    rw [List.getD_eq_getElem _ _ hjs, List.getD_eq_getElem _ _ hjlen] at this
    simpa using this.symm
  refine ⟨List.zipWith (fun ra rb => List.zipWith (fun x y => x - y) ra rb) logits scaled,
    ?_, ?_⟩
  · unfold tensorSub
    rw [if_pos ⟨hlen.symm, hall⟩]
  · have hiz : i < (List.zipWith
        (fun ra rb => List.zipWith (fun x y => x - y) ra rb) logits scaled).length := by
      rw [List.length_zipWith]
      omega
    rw [List.getD_eq_getElem _ _ hiz, List.getD_eq_getElem _ _ hi]
    have : (List.zipWith (fun ra rb => List.zipWith (fun x y => x - y) ra rb)
        logits scaled)[i] = List.zipWith (fun x y => x - y) logits[i]
          scaled[i] := List.getElem_zipWith
    rw [this]
    apply zipWith_sub_zero
    · have := hrowlen i hi
      rw [List.getD_eq_getElem _ _ (by omega : i < scaled.length),
        List.getD_eq_getElem _ _ hi] at this
      exact this
    · intro x hx
      apply hzero
      rw [List.getD_eq_getElem _ _ (by omega : i < scaled.length)]
      exact hx

theorem compute_lz_penalty_batched_shape (Wb : List (List Int)) (G : List Int) (n : Nat) :
    (∀ v, compute_lz_penalty_batched Wb G n = BatchedResult.vec v → v.length = G.length) ∧
    (∀ m, compute_lz_penalty_batched Wb G n = BatchedResult.mat m →
      m.length = Wb.length ∧ ∀ r ∈ m, r.length = G.length) := by
  constructor
  · intro v hv
    unfold compute_lz_penalty_batched at hv
    by_cases hw : (Wb.headD []).length ≤ n
    · rw [if_pos hw] at hv
      cases BatchedResult.vec.inj hv
      rw [List.length_map]
    · rw [if_neg hw] at hv
      exact BatchedResult.noConfusion hv
  · intro m hm
    unfold compute_lz_penalty_batched at hm
    by_cases hw : (Wb.headD []).length ≤ n
    · rw [if_pos hw] at hm
      exact BatchedResult.noConfusion hm
    · rw [if_neg hw] at hm
      cases BatchedResult.mat.inj hm
      constructor
      · rw [List.length_map]
      · intro r hr
        obtain ⟨row, hrow, hrowr⟩ := List.mem_map.mp hr
        rw [← hrowr, List.length_map]

theorem scaled_vec_zero_row (v : List ℝ) (pens : List ℝ) (logits : List (List ℝ))
    (V i : Nat) (hv : v.length = V) (hp : pens.length = logits.length)
    (hlogV : ∀ r ∈ logits, r.length = V) (hi : i < logits.length)
    (hw : pens.getD i 0 = 0) :
    ∃ out, tensorSub logits (pens.map (fun wgt => v.map (fun p => p * wgt))) = some out ∧
      out.getD i [] = logits.getD i [] := by
  apply tensorSub_zero_row
  · rw [List.length_map]
    exact hp
  · intro j hj
    have hjp : j < pens.length := by omega
    rw [List.getD_eq_getElem _ _ (by rw [List.length_map]; exact hjp),
      List.getElem_map, List.length_map, hv, List.getD_eq_getElem _ _ hj]
    exact (hlogV _ (List.getElem_mem _)).symm
  · intro x hx
    have hip : i < pens.length := by omega
    rw [List.getD_eq_getElem _ _ (by rw [List.length_map]; exact hip),
      List.getElem_map] at hx
    obtain ⟨p, hpmem, hpx⟩ := List.mem_map.mp hx
    rw [← hpx, ← List.getD_eq_getElem _ _ hip, hw, mul_zero]
  · exact hi

theorem scaled_mat_zero_row (m : List (List ℝ)) (pens : List ℝ) (logits : List (List ℝ))
    (V i : Nat) (hm : m.length = logits.length) (hp : pens.length = logits.length)
    (hrowV : ∀ r ∈ m, r.length = V) (hlogV : ∀ r ∈ logits, r.length = V)
    (hi : i < logits.length) (hw : pens.getD i 0 = 0) :
    ∃ out, tensorSub logits
        (List.zipWith (fun row wgt => row.map (fun p => p * wgt)) m pens) = some out ∧
      out.getD i [] = logits.getD i [] := by
  have hzlen : (List.zipWith (fun row wgt => row.map (fun p => p * wgt)) m pens).length
      = logits.length := by
    rw [List.length_zipWith, hm, hp]
    omega
  apply tensorSub_zero_row
  · exact hzlen
  · intro j hj
    have hjz : j < (List.zipWith (fun row wgt => row.map (fun p => p * wgt)) m pens).length := by
      omega
    rw [List.getD_eq_getElem _ _ hjz, List.getElem_zipWith, List.length_map,
      List.getD_eq_getElem _ _ hj]
    rw [hrowV _ (List.getElem_mem _), hlogV _ (List.getElem_mem _)]
  · intro x hx
    have hiz : i < (List.zipWith (fun row wgt => row.map (fun p => p * wgt)) m pens).length := by
      omega
    rw [List.getD_eq_getElem _ _ hiz, List.getElem_zipWith] at hx
    obtain ⟨p, hpmem, hpx⟩ := List.mem_map.mp hx
    have hip : i < pens.length := by omega
    rw [← hpx, ← List.getD_eq_getElem _ _ hip, hw, mul_zero]
  · exact hi

/-- C10: for a prepared homogeneous (batched) instance with a positive
match-length parameter (the documented domain — for `n ≤ 0` the kernel
itself raises), a request whose penalty weight is exactly 0 has its logits
row unchanged by `_apply`, whatever the contexts, parameters and weights of
the other requests: its scaled penalty row is identically zero and the
in-place subtraction leaves the row intact. -/
theorem claim_C10_zero_weight_frame (s : LZState) (rows : List (List Int))
    (logits : List (List ℝ)) (V i : Nat) (b0 : Int) (brest : List Int)
    (hbat : s.batched = true)
    (hWs : s.Ws = WsRep.tensor rows)
    (hbuf : s.lz_buffer_sizes = b0 :: brest)
    (hb0 : 1 ≤ b0)
    (hpens : s.lz_penalties.length = logits.length)
    (hrows : rows.length = logits.length)
    (hlog : ∀ r ∈ logits, r.length = V)
    (hi : i < logits.length)
    (hwzero : s.lz_penalties.getD i 0 = 0) :
    ∃ out, lz_apply V s logits = some out ∧ out.getD i [] = logits.getD i [] := by
  have hGlen : ((List.range V).map (fun k => Int.ofNat k)).length = V := by
    rw [List.length_map, List.length_range]
  cases hres : compute_lz_penalty_batched rows
      ((List.range V).map (fun k => Int.ofNat k)) b0.toNat with
  | vec v =>
      have hvlen : v.length = V := by
        rw [(compute_lz_penalty_batched_shape rows _ b0.toNat).1 v hres, hGlen]
      have happly : lz_apply V s logits = tensorSub logits
          (s.lz_penalties.map (fun wgt => v.map (fun p => p * wgt))) := by
        simp only [lz_apply, hbat, hWs, hbuf, if_true]
        rw [if_neg (by omega)]
        simp only [hres]
      rw [happly]
      exact scaled_vec_zero_row v s.lz_penalties logits V i hvlen hpens hlog hi hwzero
  | mat m =>
      obtain ⟨hmlen, hmrow⟩ :=
        (compute_lz_penalty_batched_shape rows _ b0.toNat).2 m hres
      have happly : lz_apply V s logits = tensorSub logits
          (List.zipWith (fun row wgt => row.map (fun p => p * wgt)) m s.lz_penalties) := by
        simp only [lz_apply, hbat, hWs, hbuf, if_true]
        rw [if_neg (by omega)]
        simp only [hres]
      rw [happly]
      refine scaled_mat_zero_row m s.lz_penalties logits V i (by omega) hpens ?_ hlog hi hwzero
      intro r hr
      rw [hmrow r hr, hGlen]

/-- Witness for C10: a single prepared request with weight 0, window 2,
match length 1, empty context, logits row `[5, 7]` over a two-token
vocabulary; `_apply` leaves the row unchanged. -/
theorem claim_C10_witness :
    (zeroWeightState.batched = true ∧ zeroWeightState.lz_penalties.getD 0 0 = 0) ∧
    ∃ out, lz_apply 2 zeroWeightState [[5, 7]] = some out ∧
      out.getD 0 [] = ([[5, 7]] : List (List ℝ)).getD 0 [] :=
  ⟨⟨rfl, rfl⟩,
    claim_C10_zero_weight_frame zeroWeightState [[]] [[5, 7]] 2 0 1 []
      rfl rfl rfl (by norm_num) rfl rfl (by simp) (by norm_num) rfl⟩

theorem lz_penalty_val_of_none (W G : List Int) (n : Nat) (g : Int)
    (h : lz_minBestDist (lz_RP W n g) = none) : lz_penalty_val W G n g = 0 := by
  unfold lz_penalty_val compute_lz_encoding_cost
  rw [h]
  simp [torchClampInf]

theorem lz_penalty_val_of_some (W G : List Int) (n : Nat) (g : Int) (d : Nat)
    (h : lz_minBestDist (lz_RP W n g) = some d) (hd1 : 1 ≤ d) (hdV : d ≤ G.length) :
    lz_penalty_val W G n g = Real.logb 2 (G.length : ℝ) - Real.logb 2 (d : ℝ) := by
  unfold lz_penalty_val compute_lz_encoding_cost
  rw [h]
  simp only [Option.map_some', torchClampInf]
  rw [max_eq_left (Real.logb_nonneg (by norm_num) (by exact_mod_cast hd1))]
  rw [min_eq_left ((Real.logb_le_logb (by norm_num) (by exact_mod_cast hd1)
    (by exact_mod_cast lt_of_lt_of_le Nat.zero_lt_one (le_trans hd1 hdV))).mpr
      (by exact_mod_cast hdV))]

theorem logb_two_four : Real.logb 2 (4 : ℝ) = 2 := by
  have h4 : (4 : ℝ) = 2 ^ (2 : ℕ) := by norm_num
  rw [h4, Real.logb, Real.log_pow]
  have hl : Real.log 2 ≠ 0 := by
    have := Real.log_pos (by norm_num : (1 : ℝ) < 2)
    linarith
  field_simp

/-- C2 (counterexample): for context `[1,2,3,4,2,3,4,5]`, `n = 3` and the
ten-token vocabulary it is not the case that every candidate RP value is 0
and the penalty vector is all zeros: the RP row of token 5 contains the
value 1 (its continuation matches window 5's follower even with a zero-length
run, since `RP = M·U + M = M`). -/
theorem claim_C2_counterexample :
    ¬ ((∀ g ∈ vocab10, ∀ r ∈ lz_RP ctx8 3 g, r = 0) ∧
       compute_lz_penalty_stateless ctx8 vocab10 3 = some (List.replicate 10 0)) := by
  rintro ⟨hRP, -⟩
  have h5 := hRP 5 (by decide) 1 (by decide)
  exact absurd h5 (by decide)

/-- C2 (amended): for context `[1,2,3,4,2,3,4,5]`, `n = 3` and vocabulary
`{0,...,9}`: every window's match-run value `U` is 0 (no window's suffix
matches the lookback `[3,4,5]`), hence `RP = M·U + M` collapses to the
continuation indicator `M`, which is nonzero for the tokens
`{2,3,4,5}` following some window; the penalty vector is therefore not zero:
it equals `log2 10 - log2 d` at those tokens (nearest-occurrence distances
`d = 4, 3, 2, 1` respectively) and 0 at every other vocabulary token. -/
theorem claim_C2_concrete_scenario :
    lz_U ctx8 3 = [0, 0, 0, 0, 0] ∧
    (∀ g : Int, lz_RP ctx8 3 g =
      (lz_matchContext ctx8 3).map (fun t => if g = t then 1 else 0)) ∧
    compute_lz_penalty_stateless ctx8 vocab10 3 = some
      [0, 0, Real.logb 2 10 - 2, Real.logb 2 10 - Real.logb 2 3,
       Real.logb 2 10 - 1, Real.logb 2 10, 0, 0, 0, 0] := by
  have hU : lz_U ctx8 3 = [0, 0, 0, 0, 0] := by decide
  refine ⟨hU, ?_, ?_⟩
  · intro g
    unfold lz_RP
    rw [hU, show lz_matchContext ctx8 3 = [4, 2, 3, 4, 5] from rfl]
    simp
  · have hV : ((vocab10.length : Nat) : ℝ) = 10 := by norm_num [vocab10]
    have e0 : lz_penalty_val ctx8 vocab10 3 0 = 0 :=
      lz_penalty_val_of_none _ _ _ _ (by decide)
    have e1 : lz_penalty_val ctx8 vocab10 3 1 = 0 :=
      lz_penalty_val_of_none _ _ _ _ (by decide)
    have e6 : lz_penalty_val ctx8 vocab10 3 6 = 0 :=
      lz_penalty_val_of_none _ _ _ _ (by decide)
    have e7 : lz_penalty_val ctx8 vocab10 3 7 = 0 :=
      lz_penalty_val_of_none _ _ _ _ (by decide)
    have e8 : lz_penalty_val ctx8 vocab10 3 8 = 0 :=
      lz_penalty_val_of_none _ _ _ _ (by decide)
    have e9 : lz_penalty_val ctx8 vocab10 3 9 = 0 :=
      lz_penalty_val_of_none _ _ _ _ (by decide)
    have e2 : lz_penalty_val ctx8 vocab10 3 2 = Real.logb 2 10 - 2 := by
      rw [lz_penalty_val_of_some ctx8 vocab10 3 2 4 (by decide) (by decide) (by decide), hV]
      rw [show ((4 : Nat) : ℝ) = (4 : ℝ) by norm_num, logb_two_four]
    have e3 : lz_penalty_val ctx8 vocab10 3 3 = Real.logb 2 10 - Real.logb 2 3 := by
      rw [lz_penalty_val_of_some ctx8 vocab10 3 3 3 (by decide) (by decide) (by decide), hV]
      norm_num
    have e4 : lz_penalty_val ctx8 vocab10 3 4 = Real.logb 2 10 - 1 := by
      rw [lz_penalty_val_of_some ctx8 vocab10 3 4 2 (by decide) (by decide) (by decide), hV]
      rw [show ((2 : Nat) : ℝ) = (2 : ℝ) by norm_num,
        Real.logb_self_eq_one (by norm_num)]
    have e5 : lz_penalty_val ctx8 vocab10 3 5 = Real.logb 2 10 := by
      rw [lz_penalty_val_of_some ctx8 vocab10 3 5 1 (by decide) (by decide) (by decide), hV]
      norm_num
    unfold compute_lz_penalty_stateless
    rw [if_neg (by decide)]
    refine congrArg some ?_
    show [lz_penalty_val ctx8 vocab10 3 0, lz_penalty_val ctx8 vocab10 3 1,
      lz_penalty_val ctx8 vocab10 3 2, lz_penalty_val ctx8 vocab10 3 3,
      lz_penalty_val ctx8 vocab10 3 4, lz_penalty_val ctx8 vocab10 3 5,
      lz_penalty_val ctx8 vocab10 3 6, lz_penalty_val ctx8 vocab10 3 7,
      lz_penalty_val ctx8 vocab10 3 8, lz_penalty_val ctx8 vocab10 3 9] = _
    rw [e0, e1, e2, e3, e4, e5, e6, e7, e8, e9]
